import Mathlib

/-!
# Verification of `add_voice_example.py` (VibeVoice voice-management utility)

Shallow embedding of the four operations of the script — the Voice Importer
(`add_voice_to_vibevoice`), the BGM Mixer (`create_voice_with_background_music`),
the Voice Lister (`list_available_voices`) and the Validator
(`validate_voice_file`) — together with proofs of the testable properties.

Modelling choices:
* Python strings are `List Char`; `str.split`, `in`, `endswith`, `lower`,
  `os.path.splitext` and `os.path.join` are embedded below.
* Audio signals are `List ℚ` (exact rational amplitudes stand in for the
  float samples; the constant `0.95` is `19/20`).
* The filesystem is a record of existing directories and written files;
  `os.makedirs` and `sf.write` act on it.  `librosa.load` is an external
  codec boundary: the embedded operations take the decoded signal as an
  argument, and the Validator's loader is modelled from librosa's documented
  semantics (see `librosa_load_srNone`).
* A Python exception (`ZeroDivisionError` from `len(voice)/len(music)`,
  a failing `sf.write`, a failing decode) is modelled by `Option`/`none`.
-/

namespace VibeVoice

/-! ## Python string primitives -/

/-- `needle` is a prefix of `hay` (helper for Python's substring test). -/
def isPrefixList : List Char → List Char → Bool
  | [], _ => true
  | _ :: _, [] => false
  | a :: as, b :: bs => a = b && isPrefixList as bs

/-- Python's `needle in hay` for strings: substring containment. -/
def strContains (needle : List Char) : List Char → Bool
  | [] => isPrefixList needle []
  | c :: t => isPrefixList needle (c :: t) || strContains needle t

/-- Python's `s.split(sep)` for a one-character separator: the list of chunks
between occurrences of `sep` (never empty; `"".split(sep) == ['']`). -/
def pySplit (sep : Char) : List Char → List (List Char)
  | [] => [[]]
  | c :: cs =>
    match pySplit sep cs with
    | [] => [[]]
    | r :: rs => if c = sep then [] :: r :: rs else (c :: r) :: rs

/-- Python's `s.lower()` (ASCII case folding suffices for the filenames here). -/
def lowerStr (s : List Char) : List Char := s.map Char.toLower

/-- Python's `s.endswith(suffix)`. -/
def pyEndsWith (suffix s : List Char) : Bool := isPrefixList suffix.reverse s.reverse

/-- The prefix of `s` strictly before its last `'.'`, when `s` has a dot. -/
def stemAux : List Char → Option (List Char)
  | [] => none
  | c :: cs =>
    match stemAux cs with
    | some r => some (c :: r)
    | none => if c = '.' then some [] else none

/-- `os.path.splitext(s)[0]` for a bare filename (no path separator): the part
before the last dot, except that a name whose part before the last dot is
all dots (e.g. `".wav"`, `"..wav"`) is returned whole. -/
def splitextRoot (s : List Char) : List Char :=
  match stemAux s with
  | some r => if r.any (fun c => c ≠ '.') then r else s
  | none => s

/-- `os.path.join(dir, filename)` for a relative filename. -/
def pathJoin (dir filename : List Char) : List Char := dir ++ '/' :: filename

/-! ## Filename convention (source lines 35 and 95, 109-110, 118-128) -/

/-- Line 35: `f"{language_code}-{speaker_name}_{gender}.wav"`. -/
def voiceFilename (language_code speaker_name gender : List Char) : List Char :=
  language_code ++ '-' :: speaker_name ++ '_' :: gender ++ ".wav".toList

/-- Lines 109-110: a directory entry is kept when its lowercased name ends in a
recognized audio extension. -/
def recognizedAudio (f : List Char) : Bool :=
  pyEndsWith ".wav".toList (lowerStr f) || pyEndsWith ".mp3".toList (lowerStr f) ||
  pyEndsWith ".flac".toList (lowerStr f) || pyEndsWith ".ogg".toList (lowerStr f) ||
  pyEndsWith ".m4a".toList (lowerStr f) || pyEndsWith ".aac".toList (lowerStr f)

/-- Lines 121-125: `speaker_name = name; if '_' in name: speaker_name =
name.split('_')[0]; if '-' in speaker_name: speaker_name =
speaker_name.split('-')[-1]`. -/
def extract_speaker_name (name : List Char) : List Char :=
  let sp := if strContains ['_'] name then (pySplit '_' name).headD [] else name
  if strContains ['-'] sp then (pySplit '-' sp).getLastD [] else sp

/-- Line 128: `has_bgm = 'bgm' in name.lower()`. -/
def hasBgm (name : List Char) : Bool := strContains "bgm".toList (lowerStr name)

/-- The spec's wording: "the stem's substring before the first `_`". -/
def specBeforeFirstUnderscore (s : List Char) : List Char :=
  s.takeWhile (fun c => c ≠ '_')

/-- The spec's wording: "then the substring after the last `-`". -/
def specAfterLastDash (s : List Char) : List Char :=
  (s.reverse.takeWhile (fun c => c ≠ '-')).reverse

/-! ## Audio signals and peak normalization (lines 47 and 92) -/

/-- `np.max(np.abs(audio))`: the peak absolute amplitude.  On the empty
signal this model returns `0` where numpy instead raises `ValueError`
(zero-size reduction); accordingly every theorem below that asserts a
successful Importer or Mixer run carries a non-emptiness hypothesis on the
signal reaching the normalization, and no claim relies on the value at
`[]`. -/
def peakAbs (l : List ℚ) : ℚ := (l.map (fun x => |x|)).foldr max 0

/-- Lines 47 and 92: `audio / np.max(np.abs(audio)) * 0.95`, elementwise.
The division is unguarded in the source; on an all-zero signal numpy divides
by `0.0` (producing NaN samples but still an array of the same shape).  In
this exact-arithmetic model `x / 0 = 0`, so only the shape and the guarded
(nonzero-peak) values are meaningful. -/
def peak_normalize (l : List ℚ) : List ℚ :=
  l.map (fun x => x / peakAbs l * (19 / 20))

/-- `int(np.ceil(a / b))` for positive `b` (exact arithmetic). -/
def ceilDiv (a b : ℕ) : ℕ := (a + b - 1) / b

/-! ## BGM Mixer (lines 56-100) -/

/-- Lines 81-86: make the music track match the voice length.  When the music
is longer it is truncated; otherwise it is tiled `ceil(len(voice)/len(music))`
times and truncated.  When `len(music) = 0` the else-branch evaluates
`len(voice) / len(music)` and Python raises `ZeroDivisionError`, modelled as
`none`. -/
def match_lengths (voice music : List ℚ) : Option (List ℚ) :=
  if music.length > voice.length then
    some (music.take voice.length)
  else if music.length = 0 then
    none
  else
    some (((List.replicate (ceilDiv voice.length music.length) music).flatten).take voice.length)

/-- Lines 81-92: the mixed, normalized signal `(voice + music*volume) /
peak * 0.95` after length matching (`none` when length matching raises). -/
def mixer_signal (voice music : List ℚ) (music_volume : ℚ) : Option (List ℚ) :=
  (match_lengths voice music).map (fun m =>
    peak_normalize (List.zipWith (fun v x => v + x * music_volume) voice m))

/-! ## Filesystem model -/

/-- The directories that exist and the files written, with their contents. -/
structure FS where
  dirs : List (List Char)
  files : List (List Char × List ℚ)

/-- `os.makedirs(d, exist_ok=True)`: ensures `d` exists, never fails. -/
def os_makedirs (fs : FS) (d : List Char) : FS :=
  { fs with dirs := d :: fs.dirs }

/-- `sf.write(path, data, 24000)` where `path = os.path.join(parent, name)`:
succeeds and records the file when the parent directory exists, otherwise the
underlying open fails and the call raises (`none`). -/
def sf_write (fs : FS) (parent path : List Char) (data : List ℚ) : Option FS :=
  if parent ∈ fs.dirs then
    some { fs with files := (path, data) :: fs.files }
  else
    none

/-! ## Voice Importer (lines 13-54)

Lines 40-44 decode and trim the source recording through librosa
(`librosa.load(..., sr=24000, mono=True)` then `librosa.effects.trim(audio,
top_db=20)`); that external codec/DSP boundary is modelled by taking the
trimmed mono signal as the argument `trimmed`. -/

/-- Lines 32-54 of `add_voice_to_vibevoice` after the load/trim boundary:
create the voices directory, build the conventioned filename, peak-normalize,
write, and return the target path. -/
def add_voice_to_vibevoice (fs : FS) (trimmed : List ℚ)
    (speaker_name language_code gender voices_dir : List Char) :
    Option (FS × List Char) :=
  let fs1 := os_makedirs fs voices_dir
  let filename := voiceFilename language_code speaker_name gender
  let target_path := pathJoin voices_dir filename
  let audio := peak_normalize trimmed
  (sf_write fs1 voices_dir target_path audio).map (fun fs2 => (fs2, target_path))

/-- Line 95: `f"{language_code}-{speaker_name}_bgm.wav"`. -/
def bgmFilename (language_code speaker_name : List Char) : List Char :=
  language_code ++ '-' :: speaker_name ++ "_bgm.wav".toList

/-- Lines 77-100 of `create_voice_with_background_music` after the load
boundary (`voice`, `music` are the two decoded mono signals): match lengths,
mix, normalize, and write `<dir>/<lang>-<speaker>_bgm.wav`.  No directory is
created; the write fails when `voices_dir` does not exist. -/
def create_voice_with_background_music (fs : FS) (voice music : List ℚ)
    (speaker_name language_code voices_dir : List Char) (music_volume : ℚ) :
    Option (FS × List Char) := do
  let mixed ← mixer_signal voice music music_volume
  let filename := bgmFilename language_code speaker_name
  let target_path := pathJoin voices_dir filename
  let fs2 ← sf_write fs voices_dir target_path mixed
  pure (fs2, target_path)

/-! ## Voice Lister (lines 102-144) -/

/-- One entry of the returned `voices_info` list (lines 134-139). -/
structure VoiceInfo where
  file : List Char
  speaker_name : List Char
  has_bgm : Bool
  size_kb : ℕ
deriving DecidableEq, Repr

/-- Python string `<` by Unicode code point, as used by `sorted`. -/
def strLe : List Char → List Char → Bool
  | [], _ => true
  | _ :: _, [] => false
  | a :: as, b :: bs => a < b || (a = b && strLe as bs)

/-- Lines 105-144 of `list_available_voices`: `none` models a `voices_dir`
that does not exist (return `[]`); otherwise `listing` is the `os.listdir`
result and `getsize` the `os.path.getsize` oracle.  Files with recognized
audio extensions are kept, sorted, and parsed into metadata records. -/
def list_available_voices (listing : Option (List (List Char)))
    (getsize : List Char → ℕ) : List VoiceInfo :=
  match listing with
  | none => []
  | some entries =>
    let voice_files := entries.filter recognizedAudio
    (voice_files.mergeSort strLe).map (fun voice_file =>
      let name := splitextRoot voice_file
      { file := voice_file
        speaker_name := extract_speaker_name name
        has_bgm := hasBgm name
        size_kb := getsize voice_file / 1024 })

/-! ## Validator (lines 146-175) -/

/-- The decoded value `audio`: librosa returns a flat 1-D array for mono and
a 2-D `(channels, samples)` array otherwise. -/
inductive AudioSig where
  | mono (samples : List ℚ)
  | multi (channels : List (List ℚ))
deriving DecidableEq, Repr

/-- `len(audio)`: the first dimension of the numpy array (the sample count of
a flat signal, but the CHANNEL count of a 2-D one). -/
def sigLen : AudioSig → ℕ
  | .mono samples => samples.length
  | .multi channels => channels.length

/-- `len(audio.shape) == 1`. -/
def sigIsFlat : AudioSig → Bool
  | .mono _ => true
  | .multi _ => false

/-- A file at the codec boundary: its native per-channel data and sample rate. -/
structure AudioFile where
  channels : List (List ℚ)
  sr : ℕ
deriving DecidableEq, Repr

/-- `librosa.to_mono`: a single channel is returned as is, a multi-channel
signal is averaged across channels (`np.mean(y, axis=0)`). -/
def to_mono : List (List ℚ) → List ℚ
  | [c] => c
  | cs =>
    (List.range ((cs.headD []).length)).map
      (fun i => (cs.map (fun c => c.getD i 0)).sum / cs.length)

/-- Line 150, `librosa.load(audio_path, sr=None)`, modelled from librosa's
documented semantics: `sr=None` preserves the native sample rate, and the
default `mono=True` downmixes every input to a flat 1-D signal via
`to_mono`.  `none` is an unreadable/undecodable path (librosa raises). -/
def librosa_load_srNone (file : Option AudioFile) : Option (AudioSig × ℕ) :=
  file.map (fun f => (AudioSig.mono (to_mono f.channels), f.sr))

/-- The observable outcome of `validate_voice_file`: the returned boolean and
which report lines were printed. -/
structure ValidationResult where
  ok : Bool
  printed_mono : Bool
  printed_stereo : Bool
  warn_short : Bool
  warn_long : Bool
  resample_notice : Bool
deriving DecidableEq, Repr

/-- Lines 149-175 of `validate_voice_file`, given the outcome of the
`librosa.load` call: on a failed load the exception is caught and the result
is `False` with nothing reported; otherwise `duration = len(audio)/sr`, the
channel line prints `Mono` iff the decoded signal is flat, `duration < 2`
warns short, `elif duration > 30` warns long, `sr != 24000` prints the
resample notice, and the result is `True`. -/
def validate_voice_file (load : Option (AudioSig × ℕ)) : ValidationResult :=
  match load with
  | none =>
    { ok := false, printed_mono := false, printed_stereo := false,
      warn_short := false, warn_long := false, resample_notice := false }
  | some (audio, sr) =>
    let duration : ℚ := (sigLen audio : ℚ) / (sr : ℚ)
    { ok := true
      printed_mono := sigIsFlat audio
      printed_stereo := !sigIsFlat audio
      warn_short := decide (duration < 2)
      warn_long := decide (¬(duration < 2) ∧ duration > 30)
      resample_notice := decide (sr ≠ 24000) }

/-- The Validator as called on a path: decode through `librosa_load_srNone`,
then inspect. -/
def validate_file (file : Option AudioFile) : ValidationResult :=
  validate_voice_file (librosa_load_srNone file)

/-! ## Helper lemmas: strings and splitting -/

theorem strContains_single (c : Char) (s : List Char) :
    strContains [c] s = true ↔ c ∈ s := by
  induction s with
  | nil => simp [strContains, isPrefixList]
  | cons b t ih => simp [strContains, isPrefixList, ih]

theorem pySplit_ne_nil (sep : Char) (s : List Char) : pySplit sep s ≠ [] := by
  cases s with
  | nil => simp [pySplit]
  | cons c cs =>
    simp only [pySplit]
    cases pySplit sep cs with
    | nil => simp
    | cons r rs => by_cases hc : c = sep <;> simp [hc]

theorem pySplit_headD (sep : Char) (s : List Char) :
    (pySplit sep s).headD [] = s.takeWhile (fun c => c ≠ sep) := by
  induction s with
  | nil => rfl
  | cons c cs ih =>
    simp only [pySplit]
    cases h : pySplit sep cs with
    | nil => exact absurd h (pySplit_ne_nil sep cs)
    | cons r rs =>
      rw [h] at ih
      simp only [List.headD_cons] at ih
      dsimp only
      by_cases hc : c = sep
      · rw [if_pos hc, List.headD_cons, List.takeWhile_cons, if_neg (by simp [hc])]
      · rw [if_neg hc, List.headD_cons, List.takeWhile_cons, if_pos (by simp [hc]), ih]

theorem pySplit_of_not_mem {sep : Char} {s : List Char} (h : sep ∉ s) :
    pySplit sep s = [s] := by
  induction s with
  | nil => rfl
  | cons c cs ih =>
    simp only [List.mem_cons, not_or] at h
    have hne : c ≠ sep := fun hcc => h.1 hcc.symm
    simp [pySplit, ih h.2, hne]

theorem pySplit_length_gt_one {sep : Char} {s : List Char} (h : sep ∈ s) :
    1 < (pySplit sep s).length := by
  induction s with
  | nil => cases h
  | cons c cs ih =>
    simp only [pySplit]
    cases hp : pySplit sep cs with
    | nil => exact absurd hp (pySplit_ne_nil sep cs)
    | cons r rs =>
      by_cases hc : c = sep
      · simp [hc]
      · rcases List.mem_cons.mp h with h1 | h2
        · exact absurd h1.symm hc
        · have := ih h2
          rw [hp] at this
          simp only [List.length_cons] at this ⊢
          simp only [if_neg hc, List.length_cons]
          omega

theorem takeWhile_append_all {p : Char → Bool} {a : List Char} (b : List Char)
    (h : ∀ c ∈ a, p c = true) :
    (a ++ b).takeWhile p = a ++ b.takeWhile p := by
  induction a with
  | nil => rfl
  | cons x xs ih =>
    have hx : p x = true := h x (List.mem_cons_self x xs)
    simp [List.takeWhile_cons, hx,
      ih (fun c hc => h c (List.mem_cons_of_mem x hc))]

theorem takeWhile_append_of_mem {p : Char → Bool} {a : List Char} (b : List Char)
    (h : ∃ c ∈ a, p c = false) :
    (a ++ b).takeWhile p = a.takeWhile p := by
  induction a with
  | nil => rcases h with ⟨c, hc, _⟩; cases hc
  | cons x xs ih =>
    by_cases hx : p x = true
    · have hex : ∃ c ∈ xs, p c = false := by
        rcases h with ⟨c, hc, hpc⟩
        rcases List.mem_cons.mp hc with rfl | hmem
        · rw [hx] at hpc; cases hpc
        · exact ⟨c, hmem, hpc⟩
      simp [List.takeWhile_cons, hx, ih hex]
    · have hx' : p x = false := Bool.eq_false_iff.mpr hx
      simp [List.takeWhile_cons, hx']

theorem takeWhile_ne_all {sep : Char} {a : List Char} (h : ∀ c ∈ a, c ≠ sep) :
    a.takeWhile (fun c => c ≠ sep) = a := by
  induction a with
  | nil => rfl
  | cons x xs ih =>
    have hx : x ≠ sep := h x (List.mem_cons_self x xs)
    rw [List.takeWhile_cons, if_pos (by simp [hx]),
      ih (fun c hc => h c (List.mem_cons_of_mem x hc))]

theorem takeWhile_ne_append_sep {sep : Char} {a : List Char} (b : List Char)
    (h : ∀ c ∈ a, c ≠ sep) :
    (a ++ sep :: b).takeWhile (fun c => c ≠ sep) = a := by
  rw [takeWhile_append_all (sep :: b) (fun c hc => by simpa using h c hc)]
  simp [List.takeWhile_cons]

theorem pySplit_getLastD (sep : Char) (s : List Char) :
    (pySplit sep s).getLastD [] = (s.reverse.takeWhile (fun c => c ≠ sep)).reverse := by
  induction s with
  | nil => rfl
  | cons c cs ih =>
    simp only [pySplit, List.reverse_cons]
    by_cases hmem : sep ∈ cs
    · have hrev : (cs.reverse ++ [c]).takeWhile (fun c => decide (c ≠ sep))
          = cs.reverse.takeWhile (fun c => decide (c ≠ sep)) :=
        takeWhile_append_of_mem [c]
          ⟨sep, List.mem_reverse.mpr hmem, by simp⟩
      rw [hrev]
      cases hp : pySplit sep cs with
      | nil => exact absurd hp (pySplit_ne_nil sep cs)
      | cons r rs =>
        have hlen := pySplit_length_gt_one hmem
        rw [hp] at ih hlen
        cases rs with
        | nil => simp at hlen
        | cons r' rs' =>
          simp only [List.getLastD_cons] at ih
          dsimp only
          by_cases hc : c = sep
          · rw [if_pos hc]
            simp only [List.getLastD_cons]
            exact ih
          · rw [if_neg hc]
            simp only [List.getLastD_cons]
            exact ih
    · have hall : ∀ x ∈ cs.reverse, x ≠ sep := by
        intro x hx hxeq
        exact hmem (hxeq ▸ List.mem_reverse.mp hx)
      have hrev : (cs.reverse ++ [c]).takeWhile (fun c => decide (c ≠ sep))
          = cs.reverse ++ [c].takeWhile (fun c => decide (c ≠ sep)) :=
        takeWhile_append_all [c] (fun x hx => by simpa using hall x hx)
      rw [pySplit_of_not_mem hmem, hrev]
      dsimp only
      by_cases hc : c = sep
      · rw [if_pos hc, List.takeWhile_cons, if_neg (by simp [hc]), List.append_nil]
        simp [List.getLastD_cons]
      · rw [if_neg hc, List.takeWhile_cons, if_pos (by simp [hc]), List.takeWhile_nil]
        simp [List.getLastD_cons, List.reverse_append]

/-- The Lister's two-step extraction (guarded `split('_')[0]` then
`split('-')[-1]`) is exactly the spec's "substring before the first `_`, then
substring after the last `-`". -/
theorem extract_speaker_name_eq_spec (name : List Char) :
    extract_speaker_name name
      = specAfterLastDash (specBeforeFirstUnderscore name) := by
  simp only [extract_speaker_name, specAfterLastDash, specBeforeFirstUnderscore]
  have h1 : (if strContains ['_'] name = true then (pySplit '_' name).headD [] else name)
      = name.takeWhile (fun c => c ≠ '_') := by
    by_cases h : strContains ['_'] name = true
    · rw [if_pos h, pySplit_headD]
    · rw [if_neg h, takeWhile_ne_all]
      intro c hc hceq
      exact h ((strContains_single '_' name).mpr (hceq ▸ hc))
  rw [h1]
  by_cases h2 : strContains ['-'] (name.takeWhile (fun c => c ≠ '_')) = true
  · rw [if_pos h2, pySplit_getLastD]
  · rw [if_neg h2]
    have hall : ∀ c ∈ (name.takeWhile (fun c => c ≠ '_')).reverse, c ≠ '-' := by
      intro c hc hceq
      exact h2 ((strContains_single '-' _).mpr (hceq ▸ List.mem_reverse.mp hc))
    rw [takeWhile_ne_all hall, List.reverse_reverse]

/-! ## Helper lemmas: splitext -/

theorem stemAux_none {t : List Char} (h : ∀ c ∈ t, c ≠ '.') : stemAux t = none := by
  induction t with
  | nil => rfl
  | cons c cs ih =>
    have hc : c ≠ '.' := h c (List.mem_cons_self c cs)
    simp [stemAux, ih (fun x hx => h x (List.mem_cons_of_mem c hx)), hc]

theorem stemAux_append {t : List Char} (ht : stemAux t = none) (s : List Char) :
    stemAux (s ++ '.' :: t) = some s := by
  induction s with
  | nil => simp [stemAux, ht]
  | cons c cs ih => simp [stemAux, ih]

theorem splitextRoot_append {t : List Char} (ht : stemAux t = none) {s : List Char}
    (hs : s.any (fun c => c ≠ '.') = true) :
    splitextRoot (s ++ '.' :: t) = s := by
  have hex : ∃ x ∈ s, ¬x = '.' := by simpa using hs
  simp [splitextRoot, stemAux_append ht, hex]

/-! ## Helper lemmas: ceiling division, tiling, lengths -/

theorem le_ceilDiv_mul {a b : ℕ} (hb : 0 < b) : a ≤ ceilDiv a b * b := by
  unfold ceilDiv
  rw [Nat.mul_comm]
  have h1 := Nat.div_add_mod (a + b - 1) b
  have h2 : (a + b - 1) % b < b := Nat.mod_lt _ hb
  generalize hm : b * ((a + b - 1) / b) = m at h1 ⊢
  generalize hr : (a + b - 1) % b = r at h1 h2
  omega

theorem getD_take {l : List ℚ} {n i : ℕ} (h : i < n) (d : ℚ) :
    (l.take n).getD i d = l.getD i d := by
  rw [List.getD_eq_getElem?_getD, List.getD_eq_getElem?_getD, List.getElem?_take, if_pos h]

theorem flatten_replicate_getD (d : ℚ) :
    ∀ (r : ℕ) (l : List ℚ) (i : ℕ), 0 < l.length → i < r * l.length →
      ((List.replicate r l).flatten).getD i d = l.getD (i % l.length) d := by
  intro r
  induction r with
  | zero => intro l i _ hi; simp at hi
  | succ n ih =>
    intro l i hl hi
    simp only [List.replicate_succ, List.flatten_cons]
    by_cases hcase : i < l.length
    · rw [List.getD_append _ _ _ _ hcase, Nat.mod_eq_of_lt hcase]
    · push_neg at hcase
      rw [List.getD_append_right _ _ _ _ hcase]
      have hi' : i - l.length < n * l.length := by
        have hmul : (n + 1) * l.length = n * l.length + l.length := by ring
        omega
      rw [ih l (i - l.length) hl hi', Nat.mod_eq_sub_mod hcase]

theorem getD_zipWith {f : ℚ → ℚ → ℚ} {a b : List ℚ} {i : ℕ} (d : ℚ)
    (ha : i < a.length) (hb : i < b.length) :
    (List.zipWith f a b).getD i d = f (a.getD i d) (b.getD i d) := by
  have hz : i < (List.zipWith f a b).length := by
    rw [List.length_zipWith]
    exact lt_min ha hb
  rw [List.getD_eq_getElem _ _ hz, List.getD_eq_getElem _ _ ha,
    List.getD_eq_getElem _ _ hb, List.getElem_zipWith]

theorem match_lengths_some (voice : List ℚ) {music : List ℚ} (hm : music ≠ []) :
    ∃ m, match_lengths voice music = some m ∧ m.length = voice.length := by
  have hml : 0 < music.length := List.length_pos.mpr hm
  unfold match_lengths
  by_cases h : music.length > voice.length
  · rw [if_pos h]
    refine ⟨_, rfl, ?_⟩
    rw [List.length_take]
    omega
  · rw [if_neg h, if_neg (by omega)]
    refine ⟨_, rfl, ?_⟩
    rw [List.length_take, List.length_flatten, List.map_replicate, List.sum_replicate,
      smul_eq_mul]
    have := le_ceilDiv_mul (a := voice.length) hml
    omega

theorem match_lengths_periodic {voice music : List ℚ} (h0 : 0 < music.length)
    (hlt : music.length < voice.length) :
    ∃ m, match_lengths voice music = some m ∧
      ∀ i < voice.length, m.getD i 0 = music.getD (i % music.length) 0 := by
  unfold match_lengths
  rw [if_neg (by omega), if_neg (by omega)]
  refine ⟨_, rfl, fun i hi => ?_⟩
  have hle : voice.length ≤ ceilDiv voice.length music.length * music.length :=
    le_ceilDiv_mul h0
  rw [getD_take hi, flatten_replicate_getD 0 _ _ _ h0 (by omega)]

theorem peak_normalize_length (l : List ℚ) :
    (peak_normalize l).length = l.length := by
  simp [peak_normalize]

theorem mixer_signal_length (voice : List ℚ) {music : List ℚ} (hm : music ≠ []) (vol : ℚ) :
    ∃ out, mixer_signal voice music vol = some out ∧ out.length = voice.length := by
  obtain ⟨m, hms, hlen⟩ := match_lengths_some voice hm
  refine ⟨peak_normalize (List.zipWith (fun v x => v + x * vol) voice m), ?_, ?_⟩
  · rw [mixer_signal, hms]
    rfl
  · rw [peak_normalize_length, List.length_zipWith, hlen, min_self]

/-! ## Helper lemmas: peak amplitude -/

theorem peakAbs_cons (x : ℚ) (xs : List ℚ) :
    peakAbs (x :: xs) = max |x| (peakAbs xs) := rfl

theorem peakAbs_nonneg (l : List ℚ) : 0 ≤ peakAbs l := by
  induction l with
  | nil => exact le_refl 0
  | cons x xs ih => rw [peakAbs_cons]; exact le_max_of_le_right ih

theorem abs_le_peakAbs {x : ℚ} {l : List ℚ} (h : x ∈ l) : |x| ≤ peakAbs l := by
  induction l with
  | nil => cases h
  | cons y ys ih =>
    rw [peakAbs_cons]
    rcases List.mem_cons.mp h with rfl | hmem
    · exact le_max_left _ _
    · exact le_max_of_le_right (ih hmem)

theorem peakAbs_pos {l : List ℚ} (h : ∃ x ∈ l, x ≠ 0) : 0 < peakAbs l := by
  rcases h with ⟨x, hx, hne⟩
  exact lt_of_lt_of_le (abs_pos.mpr hne) (abs_le_peakAbs hx)

theorem peakAbs_map_mul (l : List ℚ) (k : ℚ) :
    peakAbs (l.map (fun x => x * k)) = peakAbs l * |k| := by
  induction l with
  | nil => simp [peakAbs]
  | cons x xs ih =>
    simp only [List.map_cons, peakAbs_cons, ih, abs_mul]
    rw [max_mul_of_nonneg _ _ (abs_nonneg k)]

/-- Peak normalization really yields peak `0.95` whenever the divisor is
nonzero. -/
theorem peak_normalize_peakAbs {l : List ℚ} (h : peakAbs l ≠ 0) :
    peakAbs (peak_normalize l) = 19 / 20 := by
  have hp : 0 < peakAbs l := lt_of_le_of_ne (peakAbs_nonneg l) (Ne.symm h)
  have hfun : (fun x : ℚ => x / peakAbs l * (19 / 20))
      = (fun x : ℚ => x * (19 / 20 / peakAbs l)) := by
    funext x
    rw [div_mul_eq_mul_div, mul_div_assoc]
  rw [peak_normalize, hfun, peakAbs_map_mul,
    abs_of_nonneg (by positivity), mul_comm, div_mul_cancel₀ _ h]

/-! ## Helper lemmas: lexicographic order and filesystem steps -/

theorem strLe_total : ∀ a b : List Char, (strLe a b || strLe b a) = true := by
  intro a
  induction a with
  | nil => intro b; simp [strLe]
  | cons x xs ih =>
    intro b
    cases b with
    | nil => simp [strLe]
    | cons y ys =>
      simp only [strLe]
      rcases lt_trichotomy x y with h | h | h
      · simp [h]
      · subst h
        simp only [lt_self_iff_false, decide_False, Bool.false_or,
          eq_self_iff_true, decide_True, Bool.true_and]
        exact ih ys
      · simp [h]

theorem strLe_trans : ∀ a b c : List Char,
    strLe a b = true → strLe b c = true → strLe a c = true := by
  intro a
  induction a with
  | nil => intro b c _ _; simp [strLe]
  | cons x xs ih =>
    intro b c hab hbc
    cases b with
    | nil => simp [strLe] at hab
    | cons y ys =>
      cases c with
      | nil => simp [strLe] at hbc
      | cons z zs =>
        simp only [strLe, Bool.or_eq_true, Bool.and_eq_true, decide_eq_true_eq] at hab hbc ⊢
        rcases hab with h1 | ⟨rfl, h2⟩
        · rcases hbc with g1 | ⟨rfl, g2⟩
          · exact Or.inl (lt_trans h1 g1)
          · exact Or.inl h1
        · rcases hbc with g1 | ⟨rfl, g2⟩
          · exact Or.inl g1
          · exact Or.inr ⟨rfl, ih ys zs h2 g2⟩

/-- The Importer's full effect: it creates the voices directory, then the
write succeeds.  The non-emptiness hypothesis mirrors the program, where an
empty trimmed signal would make `np.max` raise `ValueError` at line 47
before any write; the exact model does not consult it. -/
theorem add_voice_some (fs : FS) (trimmed : List ℚ) (s l g d : List Char)
    (_hne : trimmed ≠ []) :
    add_voice_to_vibevoice fs trimmed s l g d
      = some (⟨d :: fs.dirs,
          (pathJoin d (voiceFilename l s g), peak_normalize trimmed) :: fs.files⟩,
          pathJoin d (voiceFilename l s g)) := by
  simp only [add_voice_to_vibevoice, os_makedirs, sf_write]
  rw [if_pos (List.mem_cons_self _ _)]
  rfl

/-- The Mixer's write fails when the voices directory does not exist. -/
theorem create_voice_none_of_not_mem {fs : FS} {voice music : List ℚ}
    {s l d : List Char} {vol : ℚ} (hd : d ∉ fs.dirs) :
    create_voice_with_background_music fs voice music s l d vol = none := by
  rcases hml : match_lengths voice music with _ | m
  · simp [create_voice_with_background_music, mixer_signal, hml]
  · simp [create_voice_with_background_music, mixer_signal, hml, sf_write, hd]

/-- A successful Mixer run writes one file and leaves the directory set
untouched.  The non-emptiness of the voice signal mirrors the program,
where an empty mixed array would make `np.max` raise `ValueError` at line
92 before the write; the exact model does not consult it. -/
theorem create_voice_some_of_mem (fs : FS) (voice music : List ℚ)
    (s l d : List Char) (vol : ℚ) (hd : d ∈ fs.dirs) (_hv : voice ≠ [])
    (hm : music ≠ []) :
    ∃ fs' p, create_voice_with_background_music fs voice music s l d vol
        = some (fs', p) ∧ fs'.dirs = fs.dirs := by
  obtain ⟨out, hout, _⟩ := mixer_signal_length voice hm vol
  refine ⟨⟨fs.dirs, (pathJoin d (bgmFilename l s), out) :: fs.files⟩,
    pathJoin d (bgmFilename l s), ?_, rfl⟩
  simp only [create_voice_with_background_music, hout, Option.bind_eq_bind,
    Option.some_bind, sf_write]
  rw [if_pos hd]
  rfl

/-- C1: For every recognized audio filename, the Lister's speaker_name
extraction takes the stem's substring before the first `_`, then the
substring after the last `-`; `en-Emma_female.wav` yields speaker_name
`Emma`, and `en-Emma_bgm.wav` yields speaker_name `Emma` with
`has_bgm = true` (`has_bgm` being a case-insensitive substring match of
"bgm" on the base name), while `en-Emma_female.wav` has `has_bgm = false`. -/
theorem C1_speaker_extraction :
    (∀ f : List Char, recognizedAudio f = true →
      extract_speaker_name (splitextRoot f)
        = specAfterLastDash (specBeforeFirstUnderscore (splitextRoot f)))
    ∧ extract_speaker_name (splitextRoot "en-Emma_female.wav".toList) = "Emma".toList
    ∧ extract_speaker_name (splitextRoot "en-Emma_bgm.wav".toList) = "Emma".toList
    ∧ hasBgm (splitextRoot "en-Emma_bgm.wav".toList) = true
    ∧ hasBgm (splitextRoot "en-Emma_female.wav".toList) = false :=
  ⟨fun f _ => extract_speaker_name_eq_spec _, by decide, by decide, by decide, by decide⟩

/-- Witness for C1 at the recognized filename `en-Emma_female.wav`. -/
theorem C1_speaker_extraction_witness :
    recognizedAudio "en-Emma_female.wav".toList = true
    ∧ extract_speaker_name (splitextRoot "en-Emma_female.wav".toList)
        = specAfterLastDash (specBeforeFirstUnderscore
            (splitextRoot "en-Emma_female.wav".toList)) :=
  ⟨by decide, C1_speaker_extraction.1 _ (by decide)⟩

/-- C2 fails as stated: for the non-empty voice signal `[1]` and the (empty)
music signal `[]`, line 85 evaluates `len(voice) / len(music)` and Python
raises `ZeroDivisionError`, so the Mixer produces no output at all. -/
theorem C2_mixer_length_counterexample :
    mixer_signal [1] [] (1 / 10) = none := by decide

/-- C2 (amended): for every non-empty voice signal and every NON-EMPTY music
signal, the Mixer's output signal length equals the voice input's length
exactly, after truncating the music if longer or tiling it if shorter. -/
theorem C2_mixer_length (voice music : List ℚ) (vol : ℚ)
    (_hv : voice ≠ []) (hm : music ≠ []) :
    ∃ out, mixer_signal voice music vol = some out ∧ out.length = voice.length :=
  mixer_signal_length voice hm vol

/-- Witness for C2 at voice `[1, 2, 3]`, music `[5]`, volume `1/10`. -/
theorem C2_mixer_length_witness :
    ([(1 : ℚ), 2, 3] ≠ [] ∧ [(5 : ℚ)] ≠ [])
    ∧ ∃ out, mixer_signal [1, 2, 3] [5] (1 / 10) = some out
        ∧ out.length = ([(1 : ℚ), 2, 3]).length :=
  ⟨⟨by decide, by decide⟩,
    C2_mixer_length [1, 2, 3] [5] (1 / 10) (by decide) (by decide)⟩

/-- C3: if the music signal is non-empty and strictly shorter than the voice
signal, the matched music track is the original music repeated periodically
and truncated to the voice length — at every index `i` below the voice
length it equals `music[i % len(music)]` — and the pre-normalization mix at
`i` is `voice[i] + music[i % len(music)] * music_volume`. -/
theorem C3_music_periodicity (voice music : List ℚ) (vol : ℚ)
    (h0 : music ≠ []) (hlt : music.length < voice.length) :
    ∃ m, match_lengths voice music = some m
      ∧ (∀ i < voice.length, m.getD i 0 = music.getD (i % music.length) 0)
      ∧ (∀ i < voice.length,
          (List.zipWith (fun v x => v + x * vol) voice m).getD i 0
            = voice.getD i 0 + music.getD (i % music.length) 0 * vol) := by
  have h0' : 0 < music.length := List.length_pos.mpr h0
  obtain ⟨m, hm, hp⟩ := match_lengths_periodic h0' hlt
  obtain ⟨m', hm', hlen⟩ := match_lengths_some voice h0
  rw [hm] at hm'
  obtain rfl : m = m' := Option.some.inj hm'
  refine ⟨m, hm, hp, fun i hi => ?_⟩
  have him : i < m.length := by rw [hlen]; exact hi
  rw [getD_zipWith 0 hi him, hp i hi]

/-- Witness for C3 at voice `[1, 2, 3]`, music `[5, 6]`, volume `1/10`. -/
theorem C3_music_periodicity_witness :
    ([(5 : ℚ), 6] ≠ [] ∧ ([(5 : ℚ), 6]).length < ([(1 : ℚ), 2, 3]).length)
    ∧ ∃ m, match_lengths [1, 2, 3] [5, 6] = some m
      ∧ (∀ i < ([(1 : ℚ), 2, 3]).length,
          m.getD i 0 = ([(5 : ℚ), 6]).getD (i % ([(5 : ℚ), 6]).length) 0)
      ∧ (∀ i < ([(1 : ℚ), 2, 3]).length,
          (List.zipWith (fun v x => v + x * (1 / 10)) [1, 2, 3] m).getD i 0
            = ([(1 : ℚ), 2, 3]).getD i 0
              + ([(5 : ℚ), 6]).getD (i % ([(5 : ℚ), 6]).length) 0 * (1 / 10)) :=
  ⟨⟨by decide, by decide⟩,
    C3_music_periodicity [1, 2, 3] [5, 6] (1 / 10) (by decide) (by decide)⟩

/-- C4: the Validator returns `True` exactly when the audio load succeeded,
and the model is a total function (every load failure is caught and turned
into `False`, nothing escapes); on a 1-second 16000 Hz mono file it reports
the short-duration warning and the resample notice and returns `True`; on an
unreadable path it returns `False` with nothing reported. -/
theorem C4_validator_boolean :
    (∀ load : Option (AudioSig × ℕ), (validate_voice_file load).ok = load.isSome)
    ∧ validate_voice_file (some (AudioSig.mono (List.replicate 16000 (1 / 2)), 16000))
        = { ok := true, printed_mono := true, printed_stereo := false,
            warn_short := true, warn_long := false, resample_notice := true }
    ∧ validate_file none
        = { ok := false, printed_mono := false, printed_stereo := false,
            warn_short := false, warn_long := false, resample_notice := false } := by
  refine ⟨?_, ?_, rfl⟩
  · intro load
    rcases load with _ | ⟨sig, sr⟩ <;> rfl
  · simp only [validate_voice_file, sigLen, sigIsFlat, List.length_replicate,
      ValidationResult.mk.injEq]
    norm_num

/-- C5 fails as stated: the concrete two-channel (stereo) file
`⟨[[1, 1], [0, 0]], 44100⟩` is NOT loaded preserving its channel layout —
`librosa.load`'s default `mono=True` downmixes it to the flat signal
`[1/2, 1/2]` — and the Validator classifies it as Mono, never Stereo. -/
theorem C5_stereo_counterexample :
    (AudioFile.mk [[1, 1], [0, 0]] 44100).channels.length = 2
    ∧ librosa_load_srNone (some (AudioFile.mk [[1, 1], [0, 0]] 44100))
        = some (AudioSig.mono [1 / 2, 1 / 2], 44100)
    ∧ (validate_file (some (AudioFile.mk [[1, 1], [0, 0]] 44100))).printed_stereo = false
    ∧ (validate_file (some (AudioFile.mk [[1, 1], [0, 0]] 44100))).printed_mono = true := by
  refine ⟨rfl, ?_, rfl, rfl⟩
  simp only [librosa_load_srNone, to_mono, Option.map_some']
  norm_num [List.range_succ]

/-- C5 (amended): the Validator loads preserving the native sample rate, but
`librosa.load`'s default `mono=True` downmixes every file to a flat mono
signal; the channel classification is Mono iff the decoded signal is flat
and Stereo otherwise, so on every file the Stereo classification is
unreachable and Mono is reported. -/
theorem C5_channel_classification :
    (∀ f : AudioFile, librosa_load_srNone (some f)
        = some (AudioSig.mono (to_mono f.channels), f.sr))
    ∧ (∀ file : Option AudioFile, (validate_file file).printed_stereo = false)
    ∧ (∀ (sig : AudioSig) (sr : ℕ),
        (validate_voice_file (some (sig, sr))).printed_mono = sigIsFlat sig
        ∧ (validate_voice_file (some (sig, sr))).printed_stereo = !sigIsFlat sig) := by
  refine ⟨fun f => rfl, ?_, fun sig sr => ⟨rfl, rfl⟩⟩
  intro file
  rcases file with _ | f <;> rfl

/-- C6: for a non-existent voices directory (and likewise for an empty one)
the Lister returns the empty result (the model is a total function — nothing
raises); otherwise it returns one metadata record per file with a recognized
audio extension, in lexicographically sorted filename order. -/
theorem C6_lister_listing (getsize : List Char → ℕ) :
    (list_available_voices none getsize = []
      ∧ list_available_voices (some []) getsize = [])
    ∧ ∀ entries : List (List Char),
        ((list_available_voices (some entries) getsize).map VoiceInfo.file).Perm
            (entries.filter recognizedAudio)
        ∧ List.Pairwise (fun a b => strLe a b = true)
            ((list_available_voices (some entries) getsize).map VoiceInfo.file) := by
  refine ⟨⟨rfl, by simp [list_available_voices]⟩, fun entries => ?_⟩
  have hmap : (list_available_voices (some entries) getsize).map VoiceInfo.file
      = (entries.filter recognizedAudio).mergeSort strLe := by
    simp only [list_available_voices, List.map_map]
    have hcomp : (VoiceInfo.file ∘ fun voice_file =>
        ({ file := voice_file,
           speaker_name := extract_speaker_name (splitextRoot voice_file),
           has_bgm := hasBgm (splitextRoot voice_file),
           size_kb := getsize voice_file / 1024 } : VoiceInfo)) = id := by
      funext f
      rfl
    rw [hcomp, List.map_id]
  constructor
  · rw [hmap]
    exact List.mergeSort_perm _ _
  · rw [hmap]
    exact List.sorted_mergeSort strLe_trans strLe_total _

/-- C7: for every filesystem and every valid (non-silent after trimming)
mono input, the Importer writes its output file at the conventioned path
`<dir>/<lang>-<speaker>_<gender>.wav`, returns that path, and the written
signal has peak absolute amplitude exactly `0.95 = 19/20`. -/
theorem C7_importer_output (fs : FS) (trimmed : List ℚ)
    (speaker language gender vdir : List Char)
    (h : ∃ x ∈ trimmed, x ≠ 0) :
    ∃ fs' : FS,
      add_voice_to_vibevoice fs trimmed speaker language gender vdir
        = some (fs', pathJoin vdir (voiceFilename language speaker gender))
      ∧ (pathJoin vdir (voiceFilename language speaker gender),
          peak_normalize trimmed) ∈ fs'.files
      ∧ peakAbs (peak_normalize trimmed) = 19 / 20 := by
  have hpeak : peakAbs trimmed ≠ 0 := ne_of_gt (peakAbs_pos h)
  have hne : trimmed ≠ [] := by
    rcases h with ⟨x, hx, _⟩
    exact List.ne_nil_of_mem hx
  exact ⟨_, add_voice_some fs trimmed speaker language gender vdir hne,
    List.mem_cons_self _ _, peak_normalize_peakAbs hpeak⟩

/-- Witness for C7 at the one-sample signal `[1]`. -/
theorem C7_importer_output_witness :
    (∃ x ∈ [(1 : ℚ)], x ≠ 0)
    ∧ ∃ fs' : FS,
      add_voice_to_vibevoice ⟨[], []⟩ [1]
          "Emma".toList "en".toList "female".toList "demo/voices".toList
        = some (fs', pathJoin "demo/voices".toList
            (voiceFilename "en".toList "Emma".toList "female".toList))
      ∧ (pathJoin "demo/voices".toList
            (voiceFilename "en".toList "Emma".toList "female".toList),
          peak_normalize [1]) ∈ fs'.files
      ∧ peakAbs (peak_normalize [1]) = 19 / 20 :=
  ⟨⟨1, List.mem_cons_self 1 [], one_ne_zero⟩,
    C7_importer_output ⟨[], []⟩ [1] "Emma".toList "en".toList "female".toList
      "demo/voices".toList ⟨1, List.mem_cons_self 1 [], one_ne_zero⟩⟩

/-- C8: whenever the signal reaching the normalization is not all-zero, the
divisor `np.max(np.abs(...))` is nonzero, so the divide-by-zero case is
unreachable; and the division is unguarded — on an all-zero signal the
divisor is `0` yet both the Importer and the Mixer still run to completion
(numpy emits NaN samples rather than raising; the exact model returns a
result as well). -/
theorem C8_normalization_guard :
    (∀ l : List ℚ, (∃ x ∈ l, x ≠ 0) → peakAbs l ≠ 0)
    ∧ peakAbs [(0 : ℚ), 0] = 0
    ∧ (add_voice_to_vibevoice ⟨[], []⟩ [0, 0]
        "s".toList "en".toList "f".toList "d".toList).isSome = true
    ∧ (create_voice_with_background_music ⟨["d".toList], []⟩ [0, 0] [0, 0]
        "s".toList "en".toList "d".toList (1 / 10)).isSome = true := by
  refine ⟨fun l hl => ne_of_gt (peakAbs_pos hl), by decide, ?_, ?_⟩
  · rw [add_voice_some ⟨[], []⟩ [0, 0]
      "s".toList "en".toList "f".toList "d".toList (by decide)]
    rfl
  · obtain ⟨fs', p, hsome, _⟩ :=
      create_voice_some_of_mem ⟨["d".toList], []⟩ [0, 0] [0, 0]
        "s".toList "en".toList "d".toList (1 / 10)
        (List.mem_cons_self _ _) (by decide) (by decide)
    rw [hsome]
    rfl

/-- Witness for C8 at the signal `[1]`. -/
theorem C8_normalization_guard_witness :
    (∃ x ∈ [(1 : ℚ)], x ≠ 0) ∧ peakAbs [(1 : ℚ)] ≠ 0 :=
  ⟨⟨1, List.mem_cons_self 1 [], one_ne_zero⟩,
    C8_normalization_guard.1 [1] ⟨1, List.mem_cons_self 1 [], one_ne_zero⟩⟩

/-- C9: unlike the Importer, the Mixer never creates the target voices
directory — when `voices_dir` does not exist the write fails and the call
returns nothing with no directory created; when the directory exists and
the decoded signals are non-empty (an empty signal would make `np.max`
raise on a zero-size array at line 92 before any write) the run succeeds
with the directory set unchanged — whereas the Importer creates the
directory before writing, so for every non-empty trimmed signal its write
succeeds and the directory exists afterwards. -/
theorem C9_mixer_no_makedirs :
    (∀ (fs : FS) (voice music : List ℚ) (s l d : List Char) (vol : ℚ),
        d ∉ fs.dirs →
        create_voice_with_background_music fs voice music s l d vol = none)
    ∧ (∀ (fs : FS) (voice music : List ℚ) (s l d : List Char) (vol : ℚ),
        d ∈ fs.dirs → voice ≠ [] → music ≠ [] →
        ∃ fs' p, create_voice_with_background_music fs voice music s l d vol
            = some (fs', p) ∧ fs'.dirs = fs.dirs)
    ∧ (∀ (fs : FS) (trimmed : List ℚ) (s l g d : List Char),
        trimmed ≠ [] →
        ∃ fs' : FS, add_voice_to_vibevoice fs trimmed s l g d
          = some (fs', pathJoin d (voiceFilename l s g)) ∧ d ∈ fs'.dirs) :=
  ⟨fun _ _ _ _ _ _ _ hd => create_voice_none_of_not_mem hd,
    fun fs voice music s l d vol hd hv hm =>
      create_voice_some_of_mem fs voice music s l d vol hd hv hm,
    fun fs trimmed s l g d hne =>
      ⟨_, add_voice_some fs trimmed s l g d hne, List.mem_cons_self _ _⟩⟩

/-- Witness for C9: the missing directory `d` on an empty filesystem, a
successful Mixer run in an existing directory on the non-empty signals
`[1]`, and a successful Importer run on the non-empty trimmed signal `[1]`. -/
theorem C9_mixer_no_makedirs_witness :
    ("d".toList ∉ (FS.mk [] []).dirs
      ∧ create_voice_with_background_music ⟨[], []⟩ [1] [1]
          "s".toList "en".toList "d".toList (1 / 10) = none)
    ∧ ("d".toList ∈ (FS.mk ["d".toList] []).dirs ∧ ([(1 : ℚ)] : List ℚ) ≠ []
      ∧ ∃ fs' p, create_voice_with_background_music ⟨["d".toList], []⟩ [1] [1]
          "s".toList "en".toList "d".toList (1 / 10) = some (fs', p)
          ∧ fs'.dirs = (FS.mk ["d".toList] []).dirs)
    ∧ (([(1 : ℚ)] : List ℚ) ≠ []
      ∧ ∃ fs' : FS, add_voice_to_vibevoice ⟨[], []⟩ [1]
          "s".toList "en".toList "f".toList "d".toList
        = some (fs', pathJoin "d".toList
            (voiceFilename "en".toList "s".toList "f".toList))
        ∧ "d".toList ∈ fs'.dirs) :=
  ⟨⟨by decide, C9_mixer_no_makedirs.1 ⟨[], []⟩ [1] [1] _ _ _ (1 / 10) (by decide)⟩,
    ⟨List.mem_cons_self _ _, by decide,
      C9_mixer_no_makedirs.2.1 ⟨["d".toList], []⟩ [1] [1] _ _ _ (1 / 10)
        (List.mem_cons_self _ _) (by decide) (by decide)⟩,
    ⟨by decide,
      C9_mixer_no_makedirs.2.2 ⟨[], []⟩ [1] _ _ _ _ (by decide)⟩⟩

/-- C10: for every speaker name, language code and gender tag containing
neither `_` nor `-`, the Lister's extraction applied to the filename the
Importer produces returns exactly the original speaker name; and for the
speaker name `Anne-Marie` (which contains `-`) the extraction returns a
different name. -/
theorem C10_roundtrip :
    (∀ lang speaker gender : List Char,
      ('_' ∉ lang ∧ '-' ∉ lang) → ('_' ∉ speaker ∧ '-' ∉ speaker) →
      ('_' ∉ gender ∧ '-' ∉ gender) →
      extract_speaker_name (splitextRoot (voiceFilename lang speaker gender)) = speaker)
    ∧ extract_speaker_name (splitextRoot
        (voiceFilename "en".toList "Anne-Marie".toList "female".toList))
        ≠ "Anne-Marie".toList := by
  constructor
  · intro lang speaker gender hl hs hg
    rw [extract_speaker_name_eq_spec]
    have hwav : stemAux "wav".toList = none := stemAux_none (by decide)
    have hassoc : voiceFilename lang speaker gender
        = (lang ++ '-' :: speaker ++ '_' :: gender) ++ '.' :: "wav".toList := rfl
    have hany : (lang ++ '-' :: speaker ++ '_' :: gender).any
        (fun c => c ≠ '.') = true := by
      refine List.any_eq_true.mpr ⟨'-', ?_, by decide⟩
      exact List.mem_append.mpr
        (Or.inl (List.mem_append.mpr (Or.inr (List.mem_cons_self _ _))))
    rw [hassoc, splitextRoot_append hwav hany, specBeforeFirstUnderscore]
    have hnou : ∀ c ∈ lang ++ '-' :: speaker, c ≠ '_' := by
      intro c hc
      rcases List.mem_append.mp hc with h | h
      · exact fun he => hl.1 (he ▸ h)
      · rcases List.mem_cons.mp h with rfl | h
        · decide
        · exact fun he => hs.1 (he ▸ h)
    rw [takeWhile_ne_append_sep _ hnou, specAfterLastDash]
    have h2 : (lang ++ '-' :: speaker).reverse
        = speaker.reverse ++ '-' :: lang.reverse := by
      simp [List.reverse_append]
    have hnod : ∀ c ∈ speaker.reverse, c ≠ '-' := by
      intro c hc he
      exact hs.2 (he ▸ List.mem_reverse.mp hc)
    rw [h2, takeWhile_ne_append_sep _ hnod, List.reverse_reverse]
  · decide

/-- Witness for C10 at language `en`, speaker `Emma`, gender `female`. -/
theorem C10_roundtrip_witness :
    (('_' ∉ "en".toList ∧ '-' ∉ "en".toList)
      ∧ ('_' ∉ "Emma".toList ∧ '-' ∉ "Emma".toList)
      ∧ ('_' ∉ "female".toList ∧ '-' ∉ "female".toList))
    ∧ extract_speaker_name (splitextRoot
        (voiceFilename "en".toList "Emma".toList "female".toList)) = "Emma".toList :=
  ⟨⟨by decide, by decide, by decide⟩,
    C10_roundtrip.1 _ _ _ (by decide) (by decide) (by decide)⟩

end VibeVoice
